import Mathlib

/-!
# CinemAI taste-profile core: a shallow embedding in Lean

This file embeds the core components of the CinemAI recommendation backend
(weighting model, clustering engine, fuzzy duplicate filter, candidate
scorer, profile builder) as Lean definitions and proves properties about
them.

Modelling conventions:
* Python floats are modelled as exact rationals (`ℚ`) where the source only
  performs field operations, and as reals (`ℝ`) where the source takes a
  fractional power (`** 1.5`, which is `x * sqrt x` for `x ≥ 0`).
* `datetime` values are modelled by a `Date` structure; ISO-8601 parsing
  (`datetime.fromisoformat`) happens upstream of the modelled code and the
  code under study only reads the `year` field.
* numpy calls that can raise (`np.average` with mismatched lengths or
  zero-sum weights) are modelled in an `Except PyError` monad, mirroring
  the exceptions numpy actually raises.
* External ML library results (KMeans label assignments, silhouette scores,
  HDBSCAN label assignments) are parameters of the embedding: the source
  consumes them opaquely and no claim constrains their numeric values.
-/

/-- Exceptions that the modelled Python code can raise.  `zeroDivisionError`
is what `np.average` raises when the weights sum to zero, `valueError` what
numpy raises on shape mismatches (and `np.stack` on an empty list).
`invalidInput` is the reportable error class the specification asks for; no
code path in the repository produces it. -/
inductive PyError where
  | zeroDivisionError
  | valueError
  | invalidInput
deriving DecidableEq, Repr

/-- domain/entities.py: `Embedding` — a dense vector of floats. -/
structure Embedding where
  vector : List ℝ

/-- domain/entities.py: `Movie`.  The dataclass annotates `year : int`, but
both construction sites (`recommendation_manager.py`, `user_profile_service.py`)
pass `getattr(m, "year", None)`, and the filtering code guards `year` with
Python truthiness, so `year` is modelled as `Option ℤ`.  `duration` is used
unguarded, matching its `int` annotation. -/
structure Movie where
  id : Option String
  title : String
  year : Option ℤ
  duration : ℚ
  genres : List String
  countries : List String
  description : Option String
  embedding : Option Embedding

instance : Inhabited Movie :=
  ⟨⟨none, "", none, 0, [], [], none, none⟩⟩

/-- domain/entities.py: `Cluster` — a weighted centroid with its members. -/
structure Cluster where
  centroid : Embedding
  movies : List Movie
  average_rating : ℝ
  count : ℕ

/-- A calendar date; `datetime.fromisoformat` parsing happens before the
modelled code runs, and `recency_weight` only consumes the year. -/
structure Date where
  year : ℤ
  month : ℕ
  day : ℕ

/-- schemas/watch_history.py: `MovieHistoryItem` (validated upload row). -/
structure MovieHistoryItem where
  title : String
  rating : ℚ
  year : ℤ
  duration : ℤ
  genres : List String
  countries : List String
  description : Option String
  watched_at : Option Date

/-- domain/entities.py: `UserProfile`. -/
structure UserProfile where
  user_id : String
  clusters : List Cluster
  movies : Option (List MovieHistoryItem)

/-- Python's `x ** 1.5` for a nonnegative float `x`. -/
noncomputable def pow_three_halves (x : ℝ) : ℝ := x * Real.sqrt x

/-- utils/weighting.py, `rating_weight`:
`return 0.15 + 0.85 * ((rating - 1) / 9) ** 1.5`.
This real-valued model is faithful for `rating ≥ 1`; for `rating < 1` the
Python expression raises no error but produces a `complex` value (negative
base under a fractional power), which has no real counterpart. -/
noncomputable def rating_weight (rating : ℚ) : ℝ :=
  0.15 + 0.85 * pow_three_halves (((rating : ℝ) - 1) / 9)

/-- utils/weighting.py, `recency_weight`: piecewise in the watch year with
fixed anchors 2020 / 1990 / 1975.  The `now` argument is accepted (as in the
source) but never read by the function body. -/
def recency_weight (watched_at : Date) (now : Date) : ℚ :=
  if 2020 ≤ watched_at.year then 1
  else if 1990 ≤ watched_at.year then
    0.85 + 0.15 * ((((watched_at.year : ℚ)) - 1990) / 30)
  else if 1975 ≤ watched_at.year then
    0.3 + 0.55 * ((((watched_at.year : ℚ)) - 1975) / 15)
  else 0.3

/-- The scalar `Σ wᵢ aᵢ / Σ wᵢ`. -/
noncomputable def weightedAvg (a : List ℝ) (w : List ℝ) : ℝ :=
  (List.zipWith (fun wi ai => wi * ai) w a).sum / w.sum

/-- `np.average(a, weights=w)` for 1-D data: raises `ValueError` when the
lengths disagree, `ZeroDivisionError` when the weights sum to zero, and
otherwise returns `Σ wᵢ aᵢ / Σ wᵢ`. -/
noncomputable def npAverage (a : List ℝ) (w : List ℝ) : Except PyError ℝ :=
  letI : Decidable (w.sum = 0) := Classical.propDecidable _
  if a.length ≠ w.length then .error .valueError
  else if w.sum = 0 then .error .zeroDivisionError
  else .ok (weightedAvg a w)

/-- Componentwise sum of a list of `d`-dimensional vectors. -/
def vecSum (d : ℕ) (vs : List (List ℝ)) : List ℝ :=
  vs.foldr (fun v acc => List.zipWith (· + ·) v acc) (List.replicate d 0)

/-- Row dimension of a matrix given as a list of rows. -/
def dimOf (X : List (List ℝ)) : ℕ := (X.headD []).length

/-- The vector `(Σ wᵢ Xᵢ) / (Σ wᵢ)` (componentwise). -/
noncomputable def weightedCentroid (X : List (List ℝ)) (w : List ℝ) : List ℝ :=
  (vecSum (dimOf X) (List.zipWith (fun wi v => v.map (fun x => wi * x)) w X)).map
    (fun s => s / w.sum)

/-- `np.average(X, axis=0, weights=w)` for a matrix of rows: raises
`ValueError` when the number of rows disagrees with the number of weights,
`ZeroDivisionError` when the weights sum to zero. -/
noncomputable def npAverageVec (X : List (List ℝ)) (w : List ℝ) :
    Except PyError (List ℝ) :=
  letI : Decidable (w.sum = 0) := Classical.propDecidable _
  if X.length ≠ w.length then .error .valueError
  else if w.sum = 0 then .error .zeroDivisionError
  else .ok (weightedCentroid X w)

/-- services/clustering_service.py, `cluster` lines 117–122: the per-item
weights `rating_weight(r) * recency_weight(d, now)` (Python `zip` truncates
to the shorter list, as `List.zipWith` does). -/
noncomputable def cluster_weights (ratings : List ℚ) (dates : List Date)
    (now : Date) : List ℝ :=
  List.zipWith (fun (r : ℚ) d => rating_weight r * ((recency_weight d now : ℚ) : ℝ))
    ratings dates

/-- Positions of the entries of `labels` that equal `i`
(`np.where(labels == i)[0]`). -/
def idxOfLabel (labels : List ℤ) (i : ℤ) : List ℕ :=
  (labels.enum.filter (fun p => p.snd == i)).map (fun p => p.fst)

/-- services/clustering_service.py, `_kmeans_clusters` loop body: a cluster
built from the member positions `idx` — weighted centroid of the member
rows, the member movies, the weighted average member rating and the member
count. -/
noncomputable def build_cluster (X : List (List ℝ)) (w : List ℝ)
    (ratings : List ℚ) (movies : List Movie) (idx : List ℕ) :
    Except PyError Cluster := do
  let cvec ← npAverageVec (idx.map (fun j => X.getD j []))
    (idx.map (fun j => w.getD j 0))
  let avg ← npAverage (idx.map (fun j => ((ratings.getD j 0 : ℚ) : ℝ)))
    (idx.map (fun j => w.getD j 0))
  pure ⟨⟨cvec⟩, idx.map (fun j => movies.getD j default), avg, idx.length⟩

/-- services/clustering_service.py, `_kmeans_clusters`: for each label
`i ∈ range k` collect the members with that label, skip empty groups, and
build the weighted cluster. -/
noncomputable def kmeans_clusters (labels : List ℤ) (X : List (List ℝ))
    (w : List ℝ) (ratings : List ℚ) (movies : List Movie) (k : ℕ) :
    Except PyError (List Cluster) :=
  (List.range k).foldlM (fun acc i =>
    let idx := idxOfLabel labels (i : ℤ)
    if idx.isEmpty then pure acc
    else do
      let c ← build_cluster X w ratings movies idx
      pure (acc ++ [c])) []

/-- services/clustering_service.py, `_best_kmeans_clusters` line 46: the
swept candidate values of `k`, i.e. Python `range(min_k, min(max_k, n))` —
the upper endpoint is excluded. -/
def sweep_ks (minK maxK n : ℕ) : List ℕ := List.range' minK (min maxK n - minK)

/-- The fold of `_best_kmeans_clusters` lines 43–52: track
`(best_k, best_score)`, updating only on a strict improvement. -/
def best_k_fold (sil : ℕ → ℚ) (ks : List ℕ) (init : ℕ × ℚ) : ℕ × ℚ :=
  ks.foldl (fun b k => if b.snd < sil k then (k, sil k) else b) init

/-- The chosen cluster count: fold over `range(2, min(10, n))` starting from
`best_k = 2, best_score = -1`.  `sil k` abstracts
`silhouette_score(X, KMeans(k).fit_predict(X))`. -/
def best_k (sil : ℕ → ℚ) (n : ℕ) : ℕ :=
  (best_k_fold sil (sweep_ks 2 10 n) (2, -1)).fst

/-- services/clustering_service.py, `_best_kmeans_clusters`: sweep `k`,
keep the best silhouette, then rebuild the clusters at the chosen `k`
(KMeans is seeded, so refitting yields the same labels `kLabels best_k`). -/
noncomputable def best_kmeans_clusters (sil : ℕ → ℚ) (kLabels : ℕ → List ℤ)
    (X : List (List ℝ)) (w : List ℝ) (ratings : List ℚ)
    (movies : List Movie) : Except PyError (List Cluster) :=
  kmeans_clusters (kLabels (best_k sil X.length)) X w ratings movies
    (best_k sil X.length)

/-- services/clustering_service.py, `_hdbscan_clusters`: if more than
`noise_threshold = 0.5` of the points are noise (label `-1`), return `none`
(the caller then falls back to KMeans); otherwise build a weighted cluster
per non-noise label.  `hdbLabels` abstracts the HDBSCAN label assignment;
the iteration order over the Python `set` of labels is unspecified and is
modelled as first-occurrence order. -/
noncomputable def hdbscan_clusters (hdbLabels : List ℤ) (X : List (List ℝ))
    (w : List ℝ) (ratings : List ℚ) (movies : List Movie) :
    Option (Except PyError (List Cluster)) :=
  if 2 * (hdbLabels.countP (fun l => l == -1)) > X.length then none
  else some
    (((hdbLabels.filter (fun l => !(l == -1))).eraseDups).foldlM (fun acc i => do
      let c ← build_cluster X w ratings movies (idxOfLabel hdbLabels i)
      pure (acc ++ [c])) [])

/-- services/clustering_service.py, `SklearnClusteringService.cluster`:
size-adaptive strategy.  `sil`, `kLabels` and `hdbLabels` abstract the
sklearn/hdbscan outputs; `now` stands for `datetime.now()`. -/
noncomputable def cluster (now : Date) (sil : ℕ → ℚ) (kLabels : ℕ → List ℤ)
    (hdbLabels : List ℤ) (embeddings : List Embedding) (ratings : List ℚ)
    (dates : List Date) (movies : List Movie) : Except PyError (List Cluster) :=
  let X := embeddings.map (fun e => e.vector)
  let w := cluster_weights ratings dates now
  let n := embeddings.length
  if n < 100 then do
    let cvec ← npAverageVec X w
    let avg ← npAverage (ratings.map (fun r : ℚ => (r : ℝ))) w
    pure [⟨⟨cvec⟩, movies, avg, n⟩]
  else if n ≤ 500 then
    best_kmeans_clusters sil kLabels X w ratings movies
  else
    match hdbscan_clusters hdbLabels X w ratings movies with
    | none => best_kmeans_clusters sil kLabels X w ratings movies
    | some r => r

/-- services/filtering_service.py, `normalize_title`: lower-case, strip
diacritics, keep alphanumerics.  Modelled on the ASCII fragment, where NFD
diacritic stripping is the identity. -/
def normalize_title (t : String) : List Char :=
  (t.toList.map Char.toLower).filter Char.isAlphanum

/-- The year guard shared by both filter passes
(`if year1 and year2 and abs(int(year1) - int(year2)) <= 1`): Python
truthiness, so a missing year or the year `0` disables the guard. -/
def year_guard (y1 y2 : Option ℤ) : Bool :=
  match y1, y2 with
  | some a, some b => decide (a ≠ 0) && decide (b ≠ 0) && decide ((a - b).natAbs ≤ 1)
  | _, _ => false

/-- services/filtering_service.py, `build_watched_title_map` followed by
`.get`: a Python dict comprehension keeps the last movie for each
normalized title. -/
def watched_title_lookup (ws : List Movie) (t : List Char) : Option Movie :=
  ws.reverse.find? (fun w => normalize_title w.title == t)

/-- services/filtering_service.py, `_fast_path_filter` loop body: keep a
candidate unless the watched map has its normalized title and the year
guard fires. -/
def fast_keep (ws : List Movie) (m : Movie) : Bool :=
  match watched_title_lookup ws (normalize_title m.title) with
  | none => true
  | some w => !(year_guard m.year w.year)

/-- services/filtering_service.py, `_fast_path_filter`. -/
def fast_path_filter (movies ws : List Movie) : List Movie :=
  movies.filter (fast_keep ws)

/-- Longest-common-subsequence recursion with explicit fuel (structural, so
that concrete instances reduce in the kernel); every step consumes at least
one list element, so any `fuel ≥ |a| + |b|` computes the true LCS length. -/
def lcs_go : ℕ → List Char → List Char → ℕ
  | 0, _, _ => 0
  | _ + 1, [], _ => 0
  | _ + 1, _ :: _, [] => 0
  | fuel + 1, a :: as, b :: bs =>
    if a = b then lcs_go fuel as bs + 1
    else max (lcs_go fuel (a :: as) bs) (lcs_go fuel as (b :: bs))

/-- Length of a longest common subsequence of two character lists. -/
def lcs_length (a b : List Char) : ℕ := lcs_go (a.length + b.length) a b

/-- rapidfuzz `fuzz.ratio` on already-normalized titles: the InDel
similarity `100 · 2·lcs(a,b) / (|a| + |b|)` on the 0–100 scale (`100` for
two empty strings), modelled in exact rational arithmetic (`mkRat` is
integer division in `ℚ`; see `fuzz_score_eq_div`). -/
def fuzz_score (a b : List Char) : ℚ :=
  if a.length + b.length = 0 then 100
  else mkRat (100 * (2 * (lcs_length a b : ℤ))) (a.length + b.length)


/-- services/filtering_service.py, `bulk_fuzzy_filter` inner loop: a
candidate is dropped when some watched title scores at least the threshold
85 and the year guard fires. -/
def fuzzy_keep (ws : List Movie) (c : Movie) : Bool :=
  !(ws.any (fun w =>
    decide (85 ≤ fuzz_score (normalize_title c.title) (normalize_title w.title)) &&
    year_guard c.year w.year))

/-- services/filtering_service.py, `bulk_fuzzy_filter` (threshold 85, year
tolerance 1). -/
def bulk_fuzzy_filter (candidates ws : List Movie) : List Movie :=
  candidates.filter (fuzzy_keep ws)

/-- The `filters` dict of `FilteringService.filter`: a missing key, `None`
and an empty list are all falsy in the source, so each dimension is
modelled as a list with `[]` meaning "no constraint". -/
structure Filters where
  watched_movies : List Movie
  genres : List String
  years : List ℤ
  durations : List ℚ
  countries : List String

/-- Python `max` of a list of rationals (callers guard non-emptiness). -/
def max_list (l : List ℚ) : ℚ := l.foldl max (l.headD 0)

/-- services/filtering_service.py, `_apply_other_filters` loop body: each
constraint is an inclusion test, skipped when its filter list is empty. -/
def other_keep (fs : Filters) (m : Movie) : Bool :=
  (fs.genres.isEmpty || fs.genres.any (fun g => m.genres.any (fun g2 => g2 == g))) &&
  (fs.years.isEmpty ||
    (match m.year with
     | some y => fs.years.any (fun z => z == y)
     | none => false)) &&
  (fs.durations.isEmpty || decide (m.duration ≤ max_list fs.durations)) &&
  (fs.countries.isEmpty || fs.countries.any (fun c => m.countries.any (fun c2 => c2 == c)))

/-- services/filtering_service.py, `_apply_other_filters`. -/
def apply_other_filters (movies : List Movie) (fs : Filters) : List Movie :=
  movies.filter (other_keep fs)

/-- services/filtering_service.py, `_deduplicate` key:
`(normalize_title(m.title), getattr(m, "year", None))`. -/
def movie_key (m : Movie) : List Char × Option ℤ := (normalize_title m.title, m.year)

/-- services/filtering_service.py, `_deduplicate` loop with its `seen`
set: keep the first movie for each key. -/
def dedup_go (seen : List (List Char × Option ℤ)) : List Movie → List Movie
  | [] => []
  | m :: ms =>
    if movie_key m ∈ seen then dedup_go seen ms
    else m :: dedup_go (movie_key m :: seen) ms

/-- services/filtering_service.py, `_deduplicate`. -/
def deduplicate (movies : List Movie) : List Movie := dedup_go [] movies

/-- services/filtering_service.py, `FilteringService.filter`: fast exact
pass, fuzzy pass, attribute filters, final deduplication. -/
def FilteringService.filter (movies : List Movie) (fs : Filters) : List Movie :=
  deduplicate
    (apply_other_filters
      (bulk_fuzzy_filter (fast_path_filter movies fs.watched_movies) fs.watched_movies)
      fs)

/-- The comparison used by `scored.sort(reverse=True, key=lambda x: x[0])`:
a stable sort that puts higher scores first. -/
def score_ge (p q : ℚ × Movie) : Prop := q.fst ≤ p.fst

instance : DecidableRel score_ge :=
  fun p q => inferInstanceAs (Decidable (q.fst ≤ p.fst))

instance : IsTotal (ℚ × Movie) score_ge :=
  ⟨fun p q => le_total q.fst p.fst⟩

instance : IsTrans (ℚ × Movie) score_ge :=
  ⟨fun _ _ _ h1 h2 => le_trans h2 h1⟩

/-- services/recommendation_service.py, `recommend` body after the centroid
stack: drop candidates without an embedding, score the rest, stable-sort by
score descending, truncate to the top 10.  `score` abstracts the
softmax-aggregated cosine similarity against the profile centroids (a
floating-point quantity whose numeric value no claim here constrains). -/
def score_and_rank (score : Movie → ℚ) (candidates : List Movie) :
    List (ℚ × Movie) :=
  (((candidates.filter (fun m => m.embedding.isSome)).map
    (fun m => (score m, m))).insertionSort score_ge).take 10

/-- services/recommendation_service.py, `RecommendationService.recommend`:
`np.stack` on an empty centroid list raises `ValueError`; otherwise the
scored top-10 list is returned. -/
def recommend (profile : UserProfile) (score : Movie → ℚ)
    (candidates : List Movie) : Except PyError (List (ℚ × Movie)) :=
  if profile.clusters.isEmpty then .error .valueError
  else .ok (score_and_rank score candidates)

/-- The movie text used for embedding:
`f"{title} {description or ''} {' '.join(genres)} {' '.join(countries)}"`. -/
def movie_text (m : MovieHistoryItem) : String :=
  m.title ++ " " ++ (m.description.getD "") ++ " " ++
    (String.intercalate " " m.genres) ++ " " ++ (String.intercalate " " m.countries)

/-- services/user_profile_service.py lines 110–122: the `Movie` entity
built from a history item (`MovieHistoryItem` has no `id` attribute, so
`getattr(m, "id", None)` yields `None`; the embedding at position `i` is
attached when present). -/
def history_movie (embs : List Embedding) (i : ℕ) (m : MovieHistoryItem) : Movie :=
  ⟨none, m.title, some m.year, (m.duration : ℚ), m.genres, m.countries,
    m.description, embs[i]?⟩

/-- services/user_profile_service.py,
`UserProfileService._build_user_profile_from_history`: keep only items with
`rating > 4`, embed their texts, and cluster them; the profile keeps the
full raw history.  `embed` abstracts the external embedding provider and
`clusterer` the injected clustering service (interface
`IClusteringService`). -/
def build_user_profile_from_history (embed : List String → List Embedding)
    (clusterer : List Embedding → List ℚ → List Date → List Movie → List Cluster)
    (user_id : String) (watch_history : List MovieHistoryItem) : UserProfile :=
  let high_rated := watch_history.filter (fun m => decide (4 < m.rating))
  let embeddings := embed (high_rated.map movie_text)
  let ratings := high_rated.map (fun m => m.rating)
  let dates := high_rated.map (fun m => m.watched_at.getD ⟨2023, 1, 1⟩)
  let movies := high_rated.enum.map (fun p => history_movie embeddings p.fst p.snd)
  ⟨user_id, clusterer embeddings ratings dates movies, some watch_history⟩

/-- The componentwise unweighted mean of the rows of `X`. -/
noncomputable def meanVec (X : List (List ℝ)) : List ℝ :=
  (vecSum (dimOf X) X).map (fun s => s / (X.length : ℝ))

/-- Bool form of "the year, when present, is a real (positive) calendar
year"; under this assumption Python year-truthiness coincides with
presence. -/
def year_ok (y : Option ℤ) : Bool := y.all (fun v => decide (0 < v))

/-- The claim-side removal predicate for the duplicate filter: some watched
item scores at or above the 85 fuzzy threshold against the candidate's
normalized title AND both release years are present and differ by at most
one year. -/
def removed_by_watched (ws : List Movie) (c : Movie) : Bool :=
  ws.any (fun w =>
    decide (85 ≤ fuzz_score (normalize_title c.title) (normalize_title w.title)) &&
    (c.year.isSome && w.year.isSome &&
      decide ((c.year.getD 0 - w.year.getD 0).natAbs ≤ 1)))

/-!
## Theorems
-/

/-- The `mkRat` form of `fuzz_score` agrees with the textbook quotient. -/
theorem fuzz_score_eq_div (a b : List Char) (h : a.length + b.length ≠ 0) :
    fuzz_score a b = 100 * (2 * (lcs_length a b : ℚ)) / ((a.length : ℚ) + (b.length : ℚ)) := by
  rw [fuzz_score, if_neg h, Rat.mkRat_eq_div]
  push_cast
  ring

theorem pow_three_halves_nonneg {x : ℝ} (hx : 0 ≤ x) : 0 ≤ pow_three_halves x :=
  mul_nonneg hx (Real.sqrt_nonneg x)

theorem pow_three_halves_le_one {x : ℝ} (hx : 0 ≤ x) (hx1 : x ≤ 1) :
    pow_three_halves x ≤ 1 := by
  have hs : Real.sqrt x ≤ 1 := by
    have := Real.sqrt_le_sqrt hx1
    simpa [Real.sqrt_one] using this
  calc x * Real.sqrt x ≤ 1 * 1 :=
        mul_le_mul hx1 hs (Real.sqrt_nonneg x) zero_le_one
    _ = 1 := one_mul 1

theorem one_lt_pow_three_halves {x : ℝ} (hx : 1 < x) : 1 < pow_three_halves x := by
  have hs : 1 ≤ Real.sqrt x := by
    have := Real.sqrt_le_sqrt hx.le
    simpa [Real.sqrt_one] using this
  calc (1 : ℝ) < x := hx
    _ = x * 1 := (mul_one x).symm
    _ ≤ x * Real.sqrt x := by
        exact mul_le_mul_of_nonneg_left hs (by linarith)

theorem pow_three_halves_one : pow_three_halves 1 = 1 := by
  simp [pow_three_halves, Real.sqrt_one]

/-- The rating factor is at least 0.15 on the rating scale. -/
theorem rating_weight_lower {r : ℚ} (h : 1 ≤ r) : (0.15 : ℝ) ≤ rating_weight r := by
  have hx : (0 : ℝ) ≤ ((r : ℝ) - 1) / 9 := by
    have : (1 : ℝ) ≤ (r : ℝ) := by exact_mod_cast h
    linarith
  have := pow_three_halves_nonneg hx
  rw [rating_weight]
  nlinarith

/-- The rating factor never exceeds 1 on the rating scale. -/
theorem rating_weight_upper {r : ℚ} (h1 : 1 ≤ r) (h10 : r ≤ 10) :
    rating_weight r ≤ 1 := by
  have hr1 : (1 : ℝ) ≤ (r : ℝ) := by exact_mod_cast h1
  have hr10 : (r : ℝ) ≤ 10 := by exact_mod_cast h10
  have hx : (0 : ℝ) ≤ ((r : ℝ) - 1) / 9 := by linarith
  have hx1 : ((r : ℝ) - 1) / 9 ≤ 1 := by linarith
  have := pow_three_halves_le_one hx hx1
  rw [rating_weight]
  nlinarith

/-- The maximum-scale rating gets the full factor 1. -/
theorem rating_weight_at_ten : rating_weight 10 = 1 := by
  rw [rating_weight]
  norm_num [pow_three_halves_one]

/-- The recency factor always lies in `[0.3, 1]`. -/
theorem recency_weight_bounds (d now : Date) :
    (0.3 : ℚ) ≤ recency_weight d now ∧ recency_weight d now ≤ 1 := by
  rw [recency_weight]
  split_ifs with h1 h2 h3
  · norm_num
  · have hy0 : d.year ≤ 2019 := by omega
    have hy : (d.year : ℚ) ≤ 2019 := by exact_mod_cast hy0
    have hy2 : (1990 : ℚ) ≤ (d.year : ℚ) := by exact_mod_cast h2
    constructor <;> nlinarith
  · have hy0 : d.year ≤ 1989 := by omega
    have hy : (d.year : ℚ) ≤ 1989 := by exact_mod_cast hy0
    have hy2 : (1975 : ℚ) ≤ (d.year : ℚ) := by exact_mod_cast h3
    constructor <;> nlinarith
  · norm_num

/-- C6 (counterexample): the claimed clamp `rating_weight r = rating_weight 10`
for `r > 10` fails already at `r = 11`: the source formula is applied to the
raw rating, giving `0.15 + 0.85·(10/9)^{3/2} > 1 = rating_weight 10`. -/
theorem rating_weight_no_clamp_at_eleven : rating_weight 11 ≠ rating_weight 10 := by
  have h10 : rating_weight 10 = 1 := rating_weight_at_ten
  have hx : (1 : ℝ) < (((11 : ℚ) : ℝ) - 1) / 9 := by norm_num
  have h := one_lt_pow_three_halves hx
  rw [rating_weight_at_ten, rating_weight]
  intro hc
  nlinarith

/-- C6 (amended): out-of-range ratings are not clamped.  For every rating
above the scale maximum the weighting formula is applied to the raw value
and yields a weight strictly above `rating_weight 10 = 1` (and for ratings
below the scale minimum the fractional power has a negative base, so the
Python result is not even a real number — no clamping happens there
either). -/
theorem rating_weight_exceeds_max_above_scale {r : ℚ} (h : 10 < r) :
    rating_weight 10 = 1 ∧ rating_weight 10 < rating_weight r := by
  refine ⟨rating_weight_at_ten, ?_⟩
  have hr : (10 : ℝ) < (r : ℝ) := by exact_mod_cast h
  have hx : (1 : ℝ) < (((r : ℚ) : ℝ) - 1) / 9 := by linarith
  have hp := one_lt_pow_three_halves hx
  rw [rating_weight_at_ten, rating_weight]
  nlinarith

/-- Witness for `rating_weight_exceeds_max_above_scale` at the concrete
rating 11. -/
theorem rating_weight_exceeds_max_above_scale_witness :
    (10 : ℚ) < 11 ∧ (rating_weight 10 = 1 ∧ rating_weight 10 < rating_weight 11) :=
  ⟨by decide, rating_weight_exceeds_max_above_scale (by decide)⟩

/-- C7 (counterexample): with `now` = 2024-01-01 the date 2019-06-01 lies
within the five years preceding `now`, yet the recency factor is
`199/200 ≠ 1` — the decay anchors are the fixed years 2020/1990/1975 and do
not track `now`. -/
theorem recency_weight_not_full_within_five_years :
    (2024 - 2019 : ℤ) ≤ 5 ∧
      recency_weight ⟨2019, 6, 1⟩ ⟨2024, 1, 1⟩ ≠ 1 := by
  constructor
  · decide
  · rw [recency_weight]
    norm_num

/-- C7 (amended): the recency factor equals the full weight 1.0 exactly when
the parsed watch year is at least the fixed anchor year 2020; the reference
time `now` is ignored entirely, so a date within the 5 years preceding `now`
receives full weight only if its calendar year is ≥ 2020. -/
theorem recency_weight_full_iff_fixed_anchor (d now now2 : Date) :
    (recency_weight d now = 1 ↔ 2020 ≤ d.year) ∧
      recency_weight d now = recency_weight d now2 := by
  refine ⟨⟨fun h => ?_, fun h => ?_⟩, rfl⟩
  · by_contra hy
    rw [recency_weight] at h
    rw [if_neg hy] at h
    split_ifs at h with h2 h3
    · have hu : d.year ≤ 2019 := by omega
      have hu2 : (d.year : ℚ) ≤ 2019 := by exact_mod_cast hu
      have hl : (1990 : ℚ) ≤ (d.year : ℚ) := by exact_mod_cast h2
      nlinarith
    · have hu : d.year ≤ 1989 := by omega
      have hu2 : (d.year : ℚ) ≤ 1989 := by exact_mod_cast hu
      nlinarith
    · norm_num at h
  · rw [recency_weight, if_pos h]

/-- C8: for every in-scale rating and every parsed watch date, the rating
factor lies in `[0.15, 1]`, the recency factor in `[0.3, 1]`, and their
product — the combined weight — in `(0, 1]`. -/
theorem combined_weight_in_unit_interval {r : ℚ} (d now : Date)
    (h1 : 1 ≤ r) (h10 : r ≤ 10) :
    (0.15 : ℝ) ≤ rating_weight r ∧ rating_weight r ≤ 1 ∧
    (0.3 : ℚ) ≤ recency_weight d now ∧ recency_weight d now ≤ 1 ∧
    0 < rating_weight r * ((recency_weight d now : ℚ) : ℝ) ∧
    rating_weight r * ((recency_weight d now : ℚ) : ℝ) ≤ 1 := by
  have ha := rating_weight_lower h1
  have hb := rating_weight_upper h1 h10
  have hc := recency_weight_bounds d now
  have hc1 : (0.3 : ℝ) ≤ ((recency_weight d now : ℚ) : ℝ) := by
    have := hc.1
    push_cast
    rw [show (0.3 : ℝ) = ((0.3 : ℚ) : ℝ) by norm_num]
    exact_mod_cast this
  have hc2 : ((recency_weight d now : ℚ) : ℝ) ≤ 1 := by exact_mod_cast hc.2
  refine ⟨ha, hb, hc.1, hc.2, ?_, ?_⟩
  · nlinarith
  · nlinarith

/-- Witness for `combined_weight_in_unit_interval` at rating 10 and watch
date 2021-05-05. -/
theorem combined_weight_in_unit_interval_witness :
    (1 : ℚ) ≤ 10 ∧ (10 : ℚ) ≤ 10 ∧
      (0 < rating_weight 10 * ((recency_weight ⟨2021, 5, 5⟩ ⟨2026, 1, 1⟩ : ℚ) : ℝ) ∧
        rating_weight 10 * ((recency_weight ⟨2021, 5, 5⟩ ⟨2026, 1, 1⟩ : ℚ) : ℝ) ≤ 1) :=
  ⟨by decide, by decide,
    (combined_weight_in_unit_interval ⟨2021, 5, 5⟩ ⟨2026, 1, 1⟩ (by decide) (by decide)).2.2.2.2⟩

theorem except_error_bind {α β : Type} (e : PyError) (f : α → Except PyError β) :
    (Except.error e >>= f : Except PyError β) = Except.error e := rfl

theorem except_ok_bind {α β : Type} (a : α) (f : α → Except PyError β) :
    (Except.ok a >>= f : Except PyError β) = f a := rfl

theorem except_error_map {α β : Type} (f : α → β) (e : PyError) :
    (f <$> (Except.error e : Except PyError α)) = Except.error e := rfl

theorem except_ok_map {α β : Type} (f : α → β) (a : α) :
    (f <$> (Except.ok a : Except PyError α)) = Except.ok (f a) := rfl

/-- C4 (amended): `cluster` performs no input validation.  On the empty
input it reaches `np.average` with an empty weight vector and dies with the
unguarded `ZeroDivisionError` that numpy raises for zero-sum weights —
exactly the behaviour the repository's own test
(`test_cluster_with_empty_data`) pins down — rather than a reportable
`InvalidInput` error. -/
theorem cluster_empty_input_zero_division (now : Date) (sil : ℕ → ℚ)
    (kLabels : ℕ → List ℤ) (hdbLabels : List ℤ) (movies : List Movie) :
    cluster now sil kLabels hdbLabels [] [] [] movies =
      .error .zeroDivisionError := by
  simp [cluster, npAverageVec, cluster_weights, except_error_bind]

/-- C4 (counterexample): at the concrete empty input the call fails with
`ZeroDivisionError`, which is not the reportable `InvalidInput` error the
claim promises. -/
theorem cluster_empty_input_not_invalid_input :
    cluster ⟨2023, 1, 1⟩ (fun _ => 0) (fun _ => []) [] [] [] [] [] =
        .error .zeroDivisionError ∧
      PyError.zeroDivisionError ≠ PyError.invalidInput := by
  refine ⟨?_, by decide⟩
  simp [cluster, npAverageVec, cluster_weights, except_error_bind]

theorem cluster_weights_length (ratings : List ℚ) (dates : List Date) (now : Date) :
    (cluster_weights ratings dates now).length = min ratings.length dates.length := by
  rw [cluster_weights, List.length_zipWith]

theorem cluster_weights_pos {ratings : List ℚ} {dates : List Date} {now : Date}
    (hscale : ∀ r ∈ ratings, (1 : ℚ) ≤ r) :
    ∀ w ∈ cluster_weights ratings dates now, 0 < w := by
  induction ratings generalizing dates with
  | nil => simp [cluster_weights]
  | cons r rs ih =>
    cases dates with
    | nil => simp [cluster_weights]
    | cons d ds =>
      intro w hw
      rw [cluster_weights, List.zipWith_cons_cons] at hw
      rcases List.mem_cons.mp hw with h | h
      · subst h
        have h1 : (0.15 : ℝ) ≤ rating_weight r :=
          rating_weight_lower (hscale r (List.mem_cons_self r rs))
        have h2 : (0.3 : ℚ) ≤ recency_weight d now := (recency_weight_bounds d now).1
        have h2r : (0 : ℝ) < ((recency_weight d now : ℚ) : ℝ) := by
          have : (0 : ℚ) < recency_weight d now := lt_of_lt_of_le (by norm_num) h2
          exact_mod_cast this
        nlinarith
      · exact ih (fun x hx => hscale x (List.mem_cons_of_mem r hx)) w h

theorem zipWith_const_of_eq {γ α β : Type} (f : γ → α → β) (c : γ) :
    ∀ (ws : List γ) (X : List α), ws.length = X.length → (∀ w ∈ ws, w = c) →
      List.zipWith f ws X = X.map (f c) := by
  intro ws
  induction ws with
  | nil =>
    intro X hlen _
    have hX : X = [] := List.length_eq_zero.mp hlen.symm
    simp [hX]
  | cons w ws ih =>
    intro X hlen hc
    cases X with
    | nil => simp at hlen
    | cons x xs =>
      have hw : w = c := hc w (List.mem_cons_self w ws)
      simp only [List.zipWith_cons_cons, List.map_cons, hw]
      congr 1
      exact ih xs (by simpa using hlen) (fun y hy => hc y (List.mem_cons_of_mem w hy))

theorem zipWith_add_map_mul (c : ℝ) :
    ∀ (a b : List ℝ),
      List.zipWith (· + ·) (a.map (fun x => c * x)) (b.map (fun x => c * x)) =
        (List.zipWith (· + ·) a b).map (fun x => c * x) := by
  intro a
  induction a with
  | nil => intro b; simp
  | cons x xs ih =>
    intro b
    cases b with
    | nil => simp
    | cons y ys => simp [ih ys, mul_add]

theorem vecSum_map_mul (c : ℝ) (d : ℕ) :
    ∀ X : List (List ℝ),
      vecSum d (X.map (fun v => v.map (fun x => c * x))) =
        (vecSum d X).map (fun x => c * x) := by
  intro X
  induction X with
  | nil => simp [vecSum, List.map_replicate, mul_zero]
  | cons v vs ih =>
    simp only [List.map_cons, vecSum, List.foldr_cons]
    have := zipWith_add_map_mul c v (vecSum d vs)
    rw [show (vs.map (fun v => v.map (fun x => c * x))).foldr
        (fun v acc => List.zipWith (· + ·) v acc) (List.replicate d 0) =
        vecSum d (vs.map (fun v => v.map (fun x => c * x))) from rfl, ih]
    exact this

theorem sum_map_mul_left_list (c : ℝ) (a : List ℝ) :
    (a.map (fun ai => c * ai)).sum = c * a.sum := by
  induction a with
  | nil => simp
  | cons x xs ih => simp [ih, mul_add]

theorem sum_const_of_eq {ws : List ℝ} {c : ℝ} (hc : ∀ w ∈ ws, w = c) :
    ws.sum = (ws.length : ℝ) * c := by
  have : ws = List.replicate ws.length c := List.eq_replicate_of_mem hc
  rw [this]
  simp [List.sum_replicate, nsmul_eq_mul]

/-- With equal weights the weighted centroid degenerates to the unweighted
componentwise mean. -/
theorem weightedCentroid_const {X : List (List ℝ)} {ws : List ℝ} {c : ℝ}
    (hlen : ws.length = X.length) (hc : ∀ w ∈ ws, w = c) (hc0 : c ≠ 0) :
    weightedCentroid X ws = meanVec X := by
  rw [weightedCentroid, meanVec,
    zipWith_const_of_eq (fun wi v => v.map (fun x => wi * x)) c ws X hlen hc,
    vecSum_map_mul, sum_const_of_eq hc, List.map_map, hlen]
  apply List.map_congr_left
  intro s _
  simp only [Function.comp_apply]
  rw [mul_comm ((X.length : ℝ)) c, mul_div_mul_left s (X.length : ℝ) hc0]

/-- With equal weights the weighted average degenerates to the plain mean. -/
theorem weightedAvg_const {a ws : List ℝ} {c : ℝ}
    (hlen : ws.length = a.length) (hc : ∀ w ∈ ws, w = c) (hc0 : c ≠ 0) :
    weightedAvg a ws = a.sum / (a.length : ℝ) := by
  rw [weightedAvg, zipWith_const_of_eq (fun wi ai => wi * ai) c ws a hlen hc,
    sum_const_of_eq hc, hlen]
  rw [sum_map_mul_left_list, mul_comm ((a.length : ℝ)) c, mul_div_mul_left a.sum (a.length : ℝ) hc0]

/-- C1: on a non-empty input with `n < 100` items, `cluster` returns exactly
one `Cluster` with `count = n`, whose centroid is the weight-weighted
average of the embeddings and whose rating is the weight-weighted average of
the ratings (weights `rating_weight · recency_weight`); when all derived
weights are equal, the centroid is the unweighted componentwise mean and the
rating the simple average. -/
theorem cluster_small_single_centroid
    (now : Date) (sil : ℕ → ℚ) (kLabels : ℕ → List ℤ) (hdbLabels : List ℤ)
    (embeddings : List Embedding) (ratings : List ℚ) (dates : List Date)
    (movies : List Movie)
    (hne : embeddings ≠ [])
    (hlt : embeddings.length < 100)
    (hr : ratings.length = embeddings.length)
    (hd : dates.length = embeddings.length)
    (hscale : ∀ r ∈ ratings, (1 : ℚ) ≤ r) :
    cluster now sil kLabels hdbLabels embeddings ratings dates movies =
      .ok [⟨⟨weightedCentroid (embeddings.map (fun e => e.vector))
              (cluster_weights ratings dates now)⟩,
            movies,
            weightedAvg (ratings.map (fun r : ℚ => (r : ℝ)))
              (cluster_weights ratings dates now),
            embeddings.length⟩] ∧
    (∀ c : ℝ, (∀ w ∈ cluster_weights ratings dates now, w = c) →
      weightedCentroid (embeddings.map (fun e => e.vector))
          (cluster_weights ratings dates now) =
        meanVec (embeddings.map (fun e => e.vector)) ∧
      weightedAvg (ratings.map (fun r : ℚ => (r : ℝ)))
          (cluster_weights ratings dates now) =
        (ratings.map (fun r : ℚ => (r : ℝ))).sum / (embeddings.length : ℝ)) := by
  have hwlen : (cluster_weights ratings dates now).length = embeddings.length := by
    rw [cluster_weights_length, hr, hd, min_self]
  have hXlen : (embeddings.map (fun e => e.vector)).length = embeddings.length :=
    List.length_map _ _
  have hpos := @cluster_weights_pos ratings dates now hscale
  have hwne : cluster_weights ratings dates now ≠ [] := by
    intro h0
    rw [h0] at hwlen
    exact hne (List.length_eq_zero.mp hwlen.symm)
  have hsum : 0 < (cluster_weights ratings dates now).sum :=
    List.sum_pos _ hpos hwne
  have h1 : npAverageVec (embeddings.map (fun e => e.vector))
      (cluster_weights ratings dates now) =
      .ok (weightedCentroid (embeddings.map (fun e => e.vector))
        (cluster_weights ratings dates now)) := by
    rw [npAverageVec, if_neg (not_not_intro (by rw [hXlen, hwlen])),
      if_neg hsum.ne']
  have h2 : npAverage (ratings.map (fun r : ℚ => (r : ℝ)))
      (cluster_weights ratings dates now) =
      .ok (weightedAvg (ratings.map (fun r : ℚ => (r : ℝ)))
        (cluster_weights ratings dates now)) := by
    rw [npAverage, if_neg (not_not_intro (by rw [List.length_map, hr, hwlen])),
      if_neg hsum.ne']
  constructor
  · simp only [cluster]
    rw [if_pos hlt, h1, except_ok_bind, h2]
    rfl
  · intro c hc
    have hc0 : c ≠ 0 := by
      obtain ⟨w0, hw0⟩ := List.exists_mem_of_ne_nil _ hwne
      have hp := hpos w0 hw0
      rw [hc w0 hw0] at hp
      exact hp.ne'
    refine ⟨weightedCentroid_const (by rw [hwlen, hXlen]) hc hc0, ?_⟩
    have := @weightedAvg_const (ratings.map (fun r : ℚ => (r : ℝ)))
      (cluster_weights ratings dates now) c
      (by rw [hwlen, List.length_map, hr]) hc hc0
    rw [this, List.length_map, hr]

/-- Witness for `cluster_small_single_centroid`: two items, ratings 10,
watch year 2021. -/
theorem cluster_small_single_centroid_witness :
    ([⟨[1, 2]⟩, ⟨[3, 5]⟩] : List Embedding).length < 100 ∧
    cluster ⟨2026, 1, 1⟩ (fun _ => 0) (fun _ => []) []
        [⟨[1, 2]⟩, ⟨[3, 5]⟩] [10, 10] [⟨2021, 1, 1⟩, ⟨2021, 1, 1⟩] [] =
      .ok [⟨⟨weightedCentroid
              (([⟨[1, 2]⟩, ⟨[3, 5]⟩] : List Embedding).map (fun e => e.vector))
              (cluster_weights [10, 10] [⟨2021, 1, 1⟩, ⟨2021, 1, 1⟩] ⟨2026, 1, 1⟩)⟩,
            [],
            weightedAvg (([10, 10] : List ℚ).map (fun r : ℚ => (r : ℝ)))
              (cluster_weights [10, 10] [⟨2021, 1, 1⟩, ⟨2021, 1, 1⟩] ⟨2026, 1, 1⟩),
            2⟩] :=
  ⟨by decide,
    (cluster_small_single_centroid ⟨2026, 1, 1⟩ (fun _ => 0) (fun _ => []) []
      [⟨[1, 2]⟩, ⟨[3, 5]⟩] [10, 10] [⟨2021, 1, 1⟩, ⟨2021, 1, 1⟩] []
      (List.cons_ne_nil _ _) (by decide) rfl rfl (by decide)).1⟩

theorem best_k_fold_cons (sil : ℕ → ℚ) (k : ℕ) (ks : List ℕ) (b : ℕ × ℚ) :
    best_k_fold sil (k :: ks) b =
      best_k_fold sil ks (if b.snd < sil k then (k, sil k) else b) := rfl

/-- Full behaviour of the `best_k` selection fold: the tracked score never
decreases, dominates every swept score, is either the untouched initial
state or the score of a swept `k` that strictly improved on the start, and
on ties the earliest (smallest, for an ascending sweep) `k` wins. -/
theorem best_k_fold_spec (sil : ℕ → ℚ) (ks : List ℕ) :
    ∀ (k0 : ℕ) (s0 : ℚ), (∀ k ∈ ks, k0 ≤ k) → List.Pairwise (· ≤ ·) ks →
      s0 ≤ (best_k_fold sil ks (k0, s0)).snd ∧
      (∀ k ∈ ks, sil k ≤ (best_k_fold sil ks (k0, s0)).snd) ∧
      (best_k_fold sil ks (k0, s0) = (k0, s0) ∨
        ((best_k_fold sil ks (k0, s0)).fst ∈ ks ∧
          sil (best_k_fold sil ks (k0, s0)).fst = (best_k_fold sil ks (k0, s0)).snd ∧
          s0 < (best_k_fold sil ks (k0, s0)).snd)) ∧
      (∀ k ∈ ks, sil k = (best_k_fold sil ks (k0, s0)).snd →
        (best_k_fold sil ks (k0, s0)).fst ≤ k) := by
  induction ks with
  | nil =>
    intro k0 s0 _ _
    exact ⟨le_refl _, by simp, Or.inl rfl, by simp⟩
  | cons k ks ih =>
    intro k0 s0 hks hpw
    have hk0k : k0 ≤ k := hks k (List.mem_cons_self _ _)
    have hkks : ∀ x ∈ ks, k ≤ x := fun x hx => (List.pairwise_cons.mp hpw).1 x hx
    have htail : List.Pairwise (· ≤ ·) ks := (List.pairwise_cons.mp hpw).2
    rw [best_k_fold_cons]
    by_cases h : s0 < sil k
    · rw [if_pos h]
      obtain ⟨ha, hb, hc, hd⟩ := ih k (sil k) hkks htail
      refine ⟨le_of_lt (lt_of_lt_of_le h ha), ?_, ?_, ?_⟩
      · intro x hx
        rcases List.mem_cons.mp hx with hx | hx
        · subst hx; exact ha
        · exact hb x hx
      · rcases hc with hc | hc
        · right
          rw [hc]
          exact ⟨List.mem_cons_self _ _, rfl, h⟩
        · right
          exact ⟨List.mem_cons_of_mem _ hc.1, hc.2.1, lt_trans h hc.2.2⟩
      · intro x hx hsx
        rcases List.mem_cons.mp hx with hx | hx
        · subst hx
          rcases hc with hc | hc
          · rw [hc]
          · exact absurd hsx (ne_of_lt hc.2.2)
        · exact hd x hx hsx
    · rw [if_neg h]
      obtain ⟨ha, hb, hc, hd⟩ := ih k0 s0 (fun x hx => hks x (List.mem_cons_of_mem _ hx)) htail
      refine ⟨ha, ?_, ?_, ?_⟩
      · intro x hx
        rcases List.mem_cons.mp hx with hx | hx
        · subst hx; exact le_trans (not_lt.mp h) ha
        · exact hb x hx
      · rcases hc with hc | hc
        · exact Or.inl hc
        · exact Or.inr ⟨List.mem_cons_of_mem _ hc.1, hc.2⟩
      · intro x hx hsx
        rcases List.mem_cons.mp hx with hx | hx
        · subst hx
          rcases hc with hc | hc
          · rw [hc]; exact hk0k
          · exact absurd (lt_of_lt_of_le hc.2.2 (hsx ▸ not_lt.mp h)) (lt_irrefl _)
        · exact hd x hx hsx

theorem sweep_ks_of_ge_100 {n : ℕ} (hn : 100 ≤ n) :
    sweep_ks 2 10 n = [2, 3, 4, 5, 6, 7, 8, 9] := by
  rw [sweep_ks, min_eq_left (by omega)]
  rfl

theorem best_k_spec (sil : ℕ → ℚ) {n : ℕ} (hn : 100 ≤ n)
    (hsil : ∀ k, (-1 : ℚ) ≤ sil k) :
    best_k sil n ∈ sweep_ks 2 10 n ∧
    (∀ k ∈ sweep_ks 2 10 n, sil k ≤ sil (best_k sil n)) ∧
    (∀ k ∈ sweep_ks 2 10 n, sil k = sil (best_k sil n) → best_k sil n ≤ k) := by
  have hsw := sweep_ks_of_ge_100 hn
  obtain ⟨ha, hb, hc, hd⟩ := best_k_fold_spec sil (sweep_ks 2 10 n) 2 (-1)
    (by rw [hsw]; decide) (by rw [hsw]; decide)
  have h2mem : 2 ∈ sweep_ks 2 10 n := by rw [hsw]; decide
  have hbest : sil (best_k sil n) = (best_k_fold sil (sweep_ks 2 10 n) (2, -1)).snd := by
    rcases hc with hc | hc
    · rw [best_k, hc]
      have h1 : sil 2 ≤ ((2 : ℕ), (-1 : ℚ)).snd := by
        have := hb 2 h2mem
        rw [hc] at this
        exact this
      exact le_antisymm h1 (hsil 2)
    · rw [best_k]
      exact hc.2.1
  refine ⟨?_, ?_, ?_⟩
  · rcases hc with hc | hc
    · rw [best_k, hc]
      exact h2mem
    · rw [best_k]
      exact hc.1
  · intro k hk
    rw [hbest]
    exact hb k hk
  · intro k hk he
    exact hd k hk (he.trans hbest)

/-- C5 (amended): for a medium dataset (`100 ≤ n ≤ 500`) `cluster` sweeps
`k` over `range(2, min(10, n))` — the upper endpoint `min(10, n)` itself is
never tried — selects the swept `k` with the maximal silhouette score
(smallest such `k` on ties, since the fold only updates on strict
improvement over an ascending sweep), and returns the weighted-centroid
clusters computed at that `k`.  The hypothesis `-1 ≤ sil k` is the
defining range of silhouette scores. -/
theorem cluster_medium_sweeps_best_k
    (now : Date) (sil : ℕ → ℚ) (kLabels : ℕ → List ℤ) (hdbLabels : List ℤ)
    (embeddings : List Embedding) (ratings : List ℚ) (dates : List Date)
    (movies : List Movie)
    (h100 : 100 ≤ embeddings.length) (h500 : embeddings.length ≤ 500)
    (hsil : ∀ k, (-1 : ℚ) ≤ sil k) :
    cluster now sil kLabels hdbLabels embeddings ratings dates movies =
      kmeans_clusters (kLabels (best_k sil embeddings.length))
        (embeddings.map (fun e => e.vector)) (cluster_weights ratings dates now)
        ratings movies (best_k sil embeddings.length) ∧
    best_k sil embeddings.length ∈ sweep_ks 2 10 embeddings.length ∧
    (∀ k ∈ sweep_ks 2 10 embeddings.length,
      sil k ≤ sil (best_k sil embeddings.length)) ∧
    (∀ k ∈ sweep_ks 2 10 embeddings.length,
      sil k = sil (best_k sil embeddings.length) →
        best_k sil embeddings.length ≤ k) := by
  obtain ⟨hmem, hmax, htie⟩ := best_k_spec sil h100 hsil
  refine ⟨?_, hmem, hmax, htie⟩
  simp only [cluster]
  rw [if_neg (by omega), if_pos h500, best_kmeans_clusters, List.length_map]

/-- C5 (counterexample): with `n = 100` the claimed sweep range
`2..min(10, n)` inclusive is not what the code explores — `k = 10` is never
tried (`range(2, 10)`), so for a silhouette function whose unique maximizer
on `2..10` is `k = 10`, the code still selects `k = 2`. -/
theorem best_k_never_tries_upper_bound :
    (10 ∉ sweep_ks 2 10 100) ∧
    best_k (fun k => if k = 10 then 1 else 0) 100 = 2 ∧
    (fun k : ℕ => if k = 10 then (1 : ℚ) else 0) 2 <
      (fun k : ℕ => if k = 10 then (1 : ℚ) else 0) 10 := by
  refine ⟨by decide, by decide, by decide⟩

/-- Witness for `cluster_medium_sweeps_best_k`: 100 identical items, a
constant silhouette function. -/
theorem cluster_medium_sweeps_best_k_witness :
    100 ≤ (List.replicate 100 (⟨[1]⟩ : Embedding)).length ∧
    best_k (fun _ => 0) (List.replicate 100 (⟨[1]⟩ : Embedding)).length ∈
      sweep_ks 2 10 (List.replicate 100 (⟨[1]⟩ : Embedding)).length :=
  ⟨by simp,
    (cluster_medium_sweeps_best_k ⟨2026, 1, 1⟩ (fun _ => 0) (fun _ => [])
      [] (List.replicate 100 ⟨[1]⟩) (List.replicate 100 5)
      (List.replicate 100 ⟨2021, 1, 1⟩) [] (by simp) (by simp)
      (fun _ => show (-1 : ℚ) ≤ 0 by decide)).2.1⟩

theorem dedup_go_sublist : ∀ (seen : List (List Char × Option ℤ)) (ms : List Movie),
    (dedup_go seen ms).Sublist ms := by
  intro seen ms
  induction ms generalizing seen with
  | nil => simp [dedup_go]
  | cons m ms ih =>
    rw [dedup_go]
    split_ifs with h
    · exact (ih seen).trans (List.sublist_cons_self m ms)
    · exact List.Sublist.cons₂ m (ih (movie_key m :: seen))

theorem mem_dedup_go_not_seen :
    ∀ (seen : List (List Char × Option ℤ)) (ms : List Movie) (x : Movie),
      x ∈ dedup_go seen ms → movie_key x ∉ seen := by
  intro seen ms
  induction ms generalizing seen with
  | nil => simp [dedup_go]
  | cons m ms ih =>
    intro x hx
    rw [dedup_go] at hx
    split_ifs at hx with h
    · exact ih seen x hx
    · rcases List.mem_cons.mp hx with hx | hx
      · subst hx; exact h
      · have := ih (movie_key m :: seen) x hx
        exact fun hmem => this (List.mem_cons_of_mem _ hmem)

theorem dedup_go_pairwise :
    ∀ (seen : List (List Char × Option ℤ)) (ms : List Movie),
      (dedup_go seen ms).Pairwise (fun a b => movie_key a ≠ movie_key b) := by
  intro seen ms
  induction ms generalizing seen with
  | nil => simp [dedup_go]
  | cons m ms ih =>
    rw [dedup_go]
    split_ifs with h
    · exact ih seen
    · refine List.pairwise_cons.mpr ⟨?_, ih (movie_key m :: seen)⟩
      intro b hb hkey
      exact mem_dedup_go_not_seen _ _ b hb (hkey ▸ List.mem_cons_self _ _)

theorem dedup_go_eq_self :
    ∀ (seen : List (List Char × Option ℤ)) (ms : List Movie),
      (∀ x ∈ ms, movie_key x ∉ seen) →
      ms.Pairwise (fun a b => movie_key a ≠ movie_key b) →
      dedup_go seen ms = ms := by
  intro seen ms
  induction ms generalizing seen with
  | nil => intro _ _; rfl
  | cons m ms ih =>
    intro hseen hpw
    rw [dedup_go, if_neg (hseen m (List.mem_cons_self _ _))]
    congr 1
    refine ih (movie_key m :: seen) ?_ (List.pairwise_cons.mp hpw).2
    intro x hx
    intro hmem
    rcases List.mem_cons.mp hmem with hk | hk
    · exact (List.pairwise_cons.mp hpw).1 x hx hk.symm
    · exact hseen x (List.mem_cons_of_mem _ hx) hk

theorem deduplicate_sublist (ms : List Movie) : (deduplicate ms).Sublist ms :=
  dedup_go_sublist [] ms

theorem deduplicate_pairwise (ms : List Movie) :
    (deduplicate ms).Pairwise (fun a b => movie_key a ≠ movie_key b) :=
  dedup_go_pairwise [] ms

theorem deduplicate_eq_self {ms : List Movie}
    (hpw : ms.Pairwise (fun a b => movie_key a ≠ movie_key b)) :
    deduplicate ms = ms :=
  dedup_go_eq_self [] ms (by simp) hpw

/-- Every survivor of the full filter pipeline passes each of the three
per-movie predicates. -/
theorem mem_filter_stages {ms : List Movie} {fs : Filters} {x : Movie}
    (hx : x ∈ FilteringService.filter ms fs) :
    x ∈ ms ∧ fast_keep fs.watched_movies x = true ∧
      fuzzy_keep fs.watched_movies x = true ∧ other_keep fs x = true := by
  rw [FilteringService.filter] at hx
  have h3 := (deduplicate_sublist _).subset hx
  rw [apply_other_filters] at h3
  have hother := List.of_mem_filter h3
  have h2 := List.mem_of_mem_filter h3
  rw [bulk_fuzzy_filter] at h2
  have hfuzzy := List.of_mem_filter h2
  have h1 := List.mem_of_mem_filter h2
  rw [fast_path_filter] at h1
  exact ⟨List.mem_of_mem_filter h1, List.of_mem_filter h1, hfuzzy, hother⟩

/-- C9: `filter` is idempotent — applying it a second time with the same
filters map returns its own output unchanged — each application is
order-preserving (the output is a sublist of the input), and the output has
no duplicate (normalized title, year) keys. -/
theorem filter_idempotent_sublist_nodup (ms : List Movie) (fs : Filters) :
    FilteringService.filter (FilteringService.filter ms fs) fs =
      FilteringService.filter ms fs ∧
    (FilteringService.filter ms fs).Sublist ms ∧
    (FilteringService.filter ms fs).Pairwise
      (fun a b => movie_key a ≠ movie_key b) := by
  refine ⟨?_, ?_, ?_⟩
  · have hstages : ∀ x, x ∈ FilteringService.filter ms fs →
        x ∈ ms ∧ fast_keep fs.watched_movies x = true ∧
          fuzzy_keep fs.watched_movies x = true ∧ other_keep fs x = true :=
      fun x hx => mem_filter_stages hx
    conv_lhs => rw [FilteringService.filter]
    rw [fast_path_filter, List.filter_eq_self.mpr (fun x hx => (hstages x hx).2.1),
      bulk_fuzzy_filter, List.filter_eq_self.mpr (fun x hx => (hstages x hx).2.2.1),
      apply_other_filters, List.filter_eq_self.mpr (fun x hx => (hstages x hx).2.2.2)]
    exact deduplicate_eq_self
      (by rw [FilteringService.filter]; exact deduplicate_pairwise _)
  · rw [FilteringService.filter]
    exact ((deduplicate_sublist _).trans (List.filter_sublist _)).trans
      ((List.filter_sublist _).trans (List.filter_sublist _))
  · rw [FilteringService.filter]
    exact deduplicate_pairwise _

theorem lcs_go_self : ∀ (a : List Char) (fuel : ℕ),
    a.length + a.length ≤ fuel → lcs_go fuel a a = a.length := by
  intro a
  induction a with
  | nil => intro fuel _; cases fuel <;> rfl
  | cons c t ih =>
    intro fuel hf
    cases fuel with
    | zero => simp at hf
    | succ f =>
      show (if c = c then lcs_go f t t + 1
        else max (lcs_go f (c :: t) t) (lcs_go f t (c :: t))) = (c :: t).length
      rw [if_pos rfl, List.length_cons, ih f (by simp at hf; omega)]

theorem lcs_length_self (a : List Char) : lcs_length a a = a.length :=
  lcs_go_self a (a.length + a.length) le_rfl

/-- An exact normalized-title match scores the full 100. -/
theorem fuzz_score_self (a : List Char) : fuzz_score a a = 100 := by
  by_cases h : a.length + a.length = 0
  · rw [fuzz_score, if_pos h]
  · rw [fuzz_score_eq_div a a h, lcs_length_self]
    have hL : a.length ≠ 0 := by omega
    have hLq : (a.length : ℚ) ≠ 0 := by exact_mod_cast hL
    field_simp
    ring

/-- Under real (positive) calendar years, Python year-truthiness in the
filter guard coincides with presence of both years plus the ±1 tolerance. -/
theorem year_guard_eq_of_ok {y1 y2 : Option ℤ}
    (h1 : year_ok y1 = true) (h2 : year_ok y2 = true) :
    year_guard y1 y2 =
      (y1.isSome && y2.isSome && decide ((y1.getD 0 - y2.getD 0).natAbs ≤ 1)) := by
  cases y1 with
  | none => rfl
  | some a =>
    cases y2 with
    | none => rfl
    | some b =>
      have ha : a ≠ 0 := by
        simp [year_ok] at h1
        omega
      have hb : b ≠ 0 := by
        simp [year_ok] at h2
        omega
      simp [year_guard, ha, hb]

theorem list_any_congr {α : Type} {f g : α → Bool} :
    ∀ {l : List α}, (∀ x ∈ l, f x = g x) → l.any f = l.any g := by
  intro l
  induction l with
  | nil => intro _; rfl
  | cons a l ih =>
    intro h
    simp only [List.any_cons, h a (List.mem_cons_self _ _),
      ih (fun x hx => h x (List.mem_cons_of_mem _ hx))]

/-- The fuzzy pass keeps a candidate exactly when no watched item triggers
the claim-side removal predicate (given well-formed years). -/
theorem fuzzy_keep_eq_not_removed {ws : List Movie} {c : Movie}
    (hcok : year_ok c.year = true) (hwok : ∀ w ∈ ws, year_ok w.year = true) :
    fuzzy_keep ws c = !(removed_by_watched ws c) := by
  rw [fuzzy_keep, removed_by_watched]
  congr 1
  exact list_any_congr (fun w hw => by rw [year_guard_eq_of_ok hcok (hwok w hw)])

/-- If the fast exact pass drops a candidate, the claim-side removal
predicate also fires: the matched watched item has the same normalized
title (fuzzy score 100 ≥ 85) and its year passes the same guard. -/
theorem fast_drop_implies_removed {ws : List Movie} {c : Movie}
    (hcok : year_ok c.year = true) (hwok : ∀ w ∈ ws, year_ok w.year = true)
    (hfk : fast_keep ws c = false) :
    removed_by_watched ws c = true := by
  rw [fast_keep] at hfk
  cases hlk : watched_title_lookup ws (normalize_title c.title) with
  | none =>
    rw [hlk] at hfk
    have hfk2 : (true : Bool) = false := hfk
    simp at hfk2
  | some w =>
    rw [hlk] at hfk
    have hfk2 : (!(year_guard c.year w.year)) = false := hfk
    have hyg : year_guard c.year w.year = true := by
      cases hyg2 : year_guard c.year w.year
      · rw [hyg2] at hfk2
        simp at hfk2
      · rfl
    have hw : w ∈ ws := by
      have := List.mem_of_find?_eq_some hlk
      exact List.mem_reverse.mp this
    have htitle : normalize_title w.title = normalize_title c.title := by
      have := List.find?_some hlk
      simpa using this
    rw [removed_by_watched]
    apply List.any_eq_true.mpr
    refine ⟨w, hw, ?_⟩
    rw [htitle, fuzz_score_self]
    rw [year_guard_eq_of_ok hcok (hwok w hw)] at hyg
    rw [hyg]
    decide

/-- C2: with a filters map carrying only the watched list, pairwise
distinct candidate keys and well-formed (positive-or-absent) years, `filter`
keeps exactly the candidates for which no watched item both scores ≥ 85 on
the normalized-title fuzzy scale (exact matches score 100 by
`fuzz_score_self`) and has a present release year within ±1 of the
candidate's present release year — in input order. -/
theorem filter_keeps_iff_no_fuzzy_match (candidates : List Movie) (fs : Filters)
    (hg : fs.genres = []) (hy : fs.years = []) (hdu : fs.durations = [])
    (hco : fs.countries = [])
    (hpw : candidates.Pairwise (fun a b => movie_key a ≠ movie_key b))
    (hcy : ∀ m ∈ candidates, year_ok m.year = true)
    (hwy : ∀ w ∈ fs.watched_movies, year_ok w.year = true) :
    FilteringService.filter candidates fs =
      candidates.filter (fun c => !(removed_by_watched fs.watched_movies c)) := by
  rw [FilteringService.filter, fast_path_filter, bulk_fuzzy_filter,
    List.filter_filter]
  have hcombined :
      candidates.filter
        (fun a => fuzzy_keep fs.watched_movies a && fast_keep fs.watched_movies a) =
      candidates.filter (fun c => !(removed_by_watched fs.watched_movies c)) := by
    apply List.filter_congr
    intro x hx
    rw [fuzzy_keep_eq_not_removed (hcy x hx) hwy]
    cases hr : removed_by_watched fs.watched_movies x with
    | true => simp
    | false =>
      cases hf : fast_keep fs.watched_movies x with
      | true => simp
      | false => rw [fast_drop_implies_removed (hcy x hx) hwy hf] at hr; simp at hr
  rw [hcombined, apply_other_filters,
    List.filter_eq_self.mpr (fun x _ => by simp [other_keep, hg, hy, hdu, hco])]
  exact deduplicate_eq_self (List.Pairwise.sublist (List.filter_sublist _) hpw)

/-- Witness for `filter_keeps_iff_no_fuzzy_match`: watched "The Matrix"
(1999) excludes the candidate "The Matrix" (1999) and retains "The Matrix
Reloaded" (2003). -/
theorem filter_keeps_iff_no_fuzzy_match_witness :
    FilteringService.filter
        [⟨some "1", "The Matrix", some 1999, 136, [], [], none, none⟩,
         ⟨some "2", "The Matrix Reloaded", some 2003, 138, [], [], none, none⟩]
        ⟨[⟨none, "The Matrix", some 1999, 136, [], [], none, none⟩], [], [], [], []⟩ =
      [⟨some "2", "The Matrix Reloaded", some 2003, 138, [], [], none, none⟩] := by
  rw [filter_keeps_iff_no_fuzzy_match _ _ rfl rfl rfl rfl (by decide) (by decide)
    (by decide)]
  rfl

theorem filter_orderedInsert_of_eq {s : ℚ} {x : ℚ × Movie} (hx : x.fst = s) :
    ∀ l : List (ℚ × Movie),
      (List.orderedInsert score_ge x l).filter (fun p => decide (p.fst = s)) =
        x :: l.filter (fun p => decide (p.fst = s)) := by
  intro l
  induction l with
  | nil => simp [List.orderedInsert, hx]
  | cons y ys ih =>
    rw [List.orderedInsert]
    split_ifs with h
    · rw [List.filter_cons_of_pos (by simp [hx])]
    · have hy : y.fst ≠ s := by
        have : ¬(y.fst ≤ x.fst) := h
        rw [← hx]
        exact fun he => this (le_of_eq he)
      rw [List.filter_cons_of_neg (by simp [hy]), ih,
        List.filter_cons_of_neg (by simp [hy])]

theorem filter_orderedInsert_of_ne {s : ℚ} {x : ℚ × Movie} (hx : x.fst ≠ s) :
    ∀ l : List (ℚ × Movie),
      (List.orderedInsert score_ge x l).filter (fun p => decide (p.fst = s)) =
        l.filter (fun p => decide (p.fst = s)) := by
  intro l
  induction l with
  | nil => simp [List.orderedInsert, hx]
  | cons y ys ih =>
    rw [List.orderedInsert]
    split_ifs with h
    · rw [List.filter_cons_of_neg (by simp [hx])]
    · by_cases hy : y.fst = s
      · rw [List.filter_cons_of_pos (by simp [hy]), ih,
          List.filter_cons_of_pos (by simp [hy])]
      · rw [List.filter_cons_of_neg (by simp [hy]), ih,
          List.filter_cons_of_neg (by simp [hy])]

/-- The stable descending sort preserves, score class by score class, the
original relative order of the scored candidates. -/
theorem filter_insertionSort_score (s : ℚ) :
    ∀ l : List (ℚ × Movie),
      (List.insertionSort score_ge l).filter (fun p => decide (p.fst = s)) =
        l.filter (fun p => decide (p.fst = s)) := by
  intro l
  induction l with
  | nil => rfl
  | cons x xs ih =>
    rw [List.insertionSort]
    by_cases hx : x.fst = s
    · rw [filter_orderedInsert_of_eq hx, ih, List.filter_cons_of_pos (by simp [hx])]
    · rw [filter_orderedInsert_of_ne hx, ih, List.filter_cons_of_neg (by simp [hx])]

/-- C3: with a non-empty centroid list, `recommend` succeeds and returns at
most 10 scored candidates, all drawn from the embedded candidates, sorted by
score descending, with equal-score candidates kept in their original input
order (the output's slice at any score `s` is a prefix of the input-order
scored list's slice at `s`). -/
theorem recommend_top10_sorted_stable (profile : UserProfile)
    (score : Movie → ℚ) (candidates : List Movie)
    (hne : profile.clusters ≠ []) :
    recommend profile score candidates = .ok (score_and_rank score candidates) ∧
    (score_and_rank score candidates).length ≤ 10 ∧
    (∀ p ∈ score_and_rank score candidates,
      p.snd ∈ candidates ∧ p.snd.embedding.isSome = true) ∧
    (score_and_rank score candidates).Pairwise score_ge ∧
    (∀ s : ℚ, ∃ t,
      (score_and_rank score candidates).filter (fun p => decide (p.fst = s)) ++ t =
        ((candidates.filter (fun m => m.embedding.isSome)).map
          (fun m => (score m, m))).filter (fun p => decide (p.fst = s))) := by
  refine ⟨?_, ?_, ?_, ?_, ?_⟩
  · rw [recommend, if_neg (by simp [List.isEmpty_iff, hne])]
  · exact List.length_take_le 10 _
  · intro p hp
    have hsort : p ∈ List.insertionSort score_ge
        ((candidates.filter (fun m => m.embedding.isSome)).map
          (fun m => (score m, m))) :=
      (List.take_sublist 10 _).subset hp
    have hmem := (List.mem_insertionSort score_ge).mp hsort
    obtain ⟨m, hm, hpm⟩ := List.mem_map.mp hmem
    have h1 := List.mem_of_mem_filter hm
    have h2 := List.of_mem_filter hm
    rw [← hpm]
    exact ⟨h1, h2⟩
  · exact List.Pairwise.sublist (List.take_sublist 10 _)
      (List.sorted_insertionSort score_ge _)
  · intro s
    refine ⟨((List.insertionSort score_ge
        ((candidates.filter (fun m => m.embedding.isSome)).map
          (fun m => (score m, m)))).drop 10).filter (fun p => decide (p.fst = s)), ?_⟩
    rw [score_and_rank, ← List.filter_append, List.take_append_drop,
      filter_insertionSort_score]

/-- Witness for `recommend_top10_sorted_stable`: one centroid, no
candidates. -/
theorem recommend_top10_sorted_stable_witness :
    ((⟨"u", [⟨⟨[1]⟩, [], 1, 1⟩], none⟩ : UserProfile).clusters ≠ []) ∧
    recommend ⟨"u", [⟨⟨[1]⟩, [], 1, 1⟩], none⟩ (fun _ => 0) [] =
      .ok (score_and_rank (fun _ => 0) []) :=
  ⟨List.cons_ne_nil _ _,
    (recommend_top10_sorted_stable ⟨"u", [⟨⟨[1]⟩, [], 1, 1⟩], none⟩ (fun _ => 0) []
      (List.cons_ne_nil _ _)).1⟩

/-- C10: profile construction discards low-rated history before embedding,
weighting and clustering — the clusters of the built profile are computed
from exactly the items with rating strictly greater than 4 (removing the
low-rated items from the history first changes nothing), while the profile's
raw movie history keeps every item. -/
theorem build_profile_uses_only_high_rated (embed : List String → List Embedding)
    (clusterer : List Embedding → List ℚ → List Date → List Movie → List Cluster)
    (uid : String) (history : List MovieHistoryItem) :
    (build_user_profile_from_history embed clusterer uid history).movies =
      some history ∧
    (build_user_profile_from_history embed clusterer uid history).clusters =
      (build_user_profile_from_history embed clusterer uid
        (history.filter (fun m => decide (4 < m.rating)))).clusters ∧
    (build_user_profile_from_history embed clusterer uid history).clusters =
      clusterer
        (embed ((history.filter (fun m => decide (4 < m.rating))).map movie_text))
        ((history.filter (fun m => decide (4 < m.rating))).map (fun m => m.rating))
        ((history.filter (fun m => decide (4 < m.rating))).map
          (fun m => m.watched_at.getD ⟨2023, 1, 1⟩))
        ((history.filter (fun m => decide (4 < m.rating))).enum.map
          (fun p => history_movie
            (embed ((history.filter (fun m => decide (4 < m.rating))).map movie_text))
            p.fst p.snd)) := by
  refine ⟨rfl, ?_, rfl⟩
  simp only [build_user_profile_from_history, List.filter_filter, Bool.and_self]
